import Mathlib

/-!
Saturating arithmetic and bit counting.

A shallow embedding of `saturating.hpp` (namespace `sat_arith`) and
`bitcount.hpp` (namespace `rel`).

Machine integers are mathematical integers together with the integer type
they live in.  The data model is LP64 with a 32-bit `int`: the integer types
are the signed and unsigned types of 8, 16, 32 and 64 bits, signed types are
two's complement, and a conversion to a type reduces modulo `2 ^ bits`.
-/

namespace Cxx

/-- An integer type of C++: its signedness and its width in bits. -/
structure IntType where
  isSigned : Bool
  bits : Nat
deriving DecidableEq, Repr

/-- The type `signed char` (`std::int8_t`). -/
def int8 : IntType := ⟨true, 8⟩
/-- The type `short` (`std::int16_t`). -/
def int16 : IntType := ⟨true, 16⟩
/-- The type `int` (`std::int32_t`). -/
def int32 : IntType := ⟨true, 32⟩
/-- The type `long` (`std::int64_t`). -/
def int64 : IntType := ⟨true, 64⟩
/-- The type `unsigned char` (`std::uint8_t`). -/
def uint8 : IntType := ⟨false, 8⟩
/-- The type `unsigned short` (`std::uint16_t`). -/
def uint16 : IntType := ⟨false, 16⟩
/-- The type `unsigned int` (`std::uint32_t`). -/
def uint32 : IntType := ⟨false, 32⟩
/-- The type `unsigned long` (`std::uint64_t`). -/
def uint64 : IntType := ⟨false, 64⟩

/-- The value `std::numeric_limits<T>::max()`. -/
def IntType.max (T : IntType) : Int :=
  if T.isSigned then 2 ^ (T.bits - 1) - 1 else 2 ^ T.bits - 1

/-- The value `std::numeric_limits<T>::min()`. -/
def IntType.min (T : IntType) : Int :=
  if T.isSigned then -(2 ^ (T.bits - 1)) else 0

/-- The integer `v` is a value of type `T`. -/
def IntType.InRange (T : IntType) (v : Int) : Prop :=
  T.min ≤ v ∧ v ≤ T.max

instance (T : IntType) (v : Int) : Decidable (T.InRange v) := by
  unfold IntType.InRange
  exact inferInstance

/-- The widths of the integer types of the data model. -/
def IntType.Supported (T : IntType) : Prop :=
  T.bits = 8 ∨ T.bits = 16 ∨ T.bits = 32 ∨ T.bits = 64

instance (T : IntType) : Decidable T.Supported := by
  unfold IntType.Supported
  exact inferInstance

/-- Conversion of an integer to type `T` (`static_cast<T>`): the value is
reduced modulo `2 ^ bits` into the range of `T`. -/
def static_cast (T : IntType) (v : Int) : Int :=
  if T.isSigned then (v + 2 ^ (T.bits - 1)) % 2 ^ T.bits - 2 ^ (T.bits - 1)
  else v % 2 ^ T.bits

/-- Integral promotion: a type narrower than `int` is promoted to `int`,
which holds all its values. -/
def promote (T : IntType) : IntType :=
  if T.bits < 32 then int32 else T

/-- The common type of the usual arithmetic conversions for operands of
types `A` and `B`: both are promoted; with equal signedness the wider type
wins; otherwise the unsigned type wins unless the signed one is strictly
wider (and so holds every value of the unsigned one). -/
def common_type (A B : IntType) : IntType :=
  let A' := promote A
  let B' := promote B
  if A'.isSigned = B'.isSigned then
    (if B'.bits ≤ A'.bits then A' else B')
  else
    let S := if A'.isSigned then A' else B'
    let U := if A'.isSigned then B' else A'
    if S.bits ≤ U.bits then U else S

/-- The comparison `a < b` of an `a` of type `A` with a `b` of type `B`:
both operands are first converted to the common type. -/
def cmp_lt (A : IntType) (a : Int) (B : IntType) (b : Int) : Bool :=
  decide (static_cast (common_type A B) a < static_cast (common_type A B) b)

/-- The comparison `a > b` of an `a` of type `A` with a `b` of type `B`. -/
def cmp_gt (A : IntType) (a : Int) (B : IntType) (b : Int) : Bool :=
  decide (static_cast (common_type A B) a > static_cast (common_type A B) b)

/-- The comparison `a == b` of an `a` of type `A` with a `b` of type `B`. -/
def cmp_eq (A : IntType) (a : Int) (B : IntType) (b : Int) : Bool :=
  decide (static_cast (common_type A B) a = static_cast (common_type A B) b)

/-- The builtin `__builtin_add_overflow(a, b, &res)` with `res` of type `T`:
the sum is computed exactly and converted to `T`; the flag tells whether the
stored value differs from the exact one. -/
def builtin_add_overflow (T : IntType) (a b : Int) : Bool × Int :=
  (decide (static_cast T (a + b) ≠ a + b), static_cast T (a + b))

/-- The builtin `__builtin_sub_overflow(a, b, &res)` with `res` of type `T`. -/
def builtin_sub_overflow (T : IntType) (a b : Int) : Bool × Int :=
  (decide (static_cast T (a - b) ≠ a - b), static_cast T (a - b))

/-- The builtin `__builtin_mul_overflow(a, b, &res)` with `res` of type `T`. -/
def builtin_mul_overflow (T : IntType) (a b : Int) : Bool × Int :=
  (decide (static_cast T (a * b) ≠ a * b), static_cast T (a * b))

/-- The bit pattern of the value `v` in type `C`: the two's complement
representation read as a natural number below `2 ^ bits`. -/
def to_bits (C : IntType) (v : Int) : Nat :=
  (v % 2 ^ C.bits).toNat

/-- The expression `a & b` for an `a` of type `A` and a `b` of type `B`: both
are converted to the common type, the bit patterns are combined and the
result is a value of the common type. -/
def bit_and (A : IntType) (a : Int) (B : IntType) (b : Int) : Int :=
  static_cast (common_type A B)
    ((to_bits (common_type A B) a &&& to_bits (common_type A B) b : Nat) : Int)

/-- The expression `~a` for an `a` of type `A`: the complement is taken in
the promoted type. -/
def bit_not (A : IntType) (a : Int) : Int :=
  static_cast (promote A) (-(static_cast (promote A) a) - 1)

/-- The expression `-a` for an `a` of type `A`: the negation is taken in the
promoted type, modulo `2 ^ bits` when that type is unsigned. -/
def negate (A : IntType) (a : Int) : Int :=
  static_cast (promote A) (-(static_cast (promote A) a))

/-- The expression `a << n` for an `a` of type `A`: the shift is taken in the
promoted type. -/
def shift_left (A : IntType) (a : Int) (n : Nat) : Int :=
  static_cast (promote A) (static_cast (promote A) a * 2 ^ n)

/-- The value `std::numeric_limits<T>::digits`: the number of value bits. -/
def IntType.digits (T : IntType) : Int :=
  if T.isSigned then T.bits - 1 else T.bits

/-- The number with the bytes `b0` (lowest) to `b3`; the proofs about the
32-bit bit tricks read a value byte by byte in this form. -/
def bytes4 (b0 b1 b2 b3 : Nat) : Nat :=
  256 * (256 * (256 * b3 + b2) + b1) + b0

/-- What `x -= (x >> 1) & 0x55555555` does to one byte: every pair of bits
comes to hold the number of bits set in it. -/
def pair_counts (b : Nat) : Nat :=
  b - (b / 2 &&& 0x55)

/-- What `x = (x & 0x33333333) + ((x >> 2) & 0x33333333)` does to one byte:
neighbouring pair counts are added into nibbles. -/
def nibble_counts (p : Nat) : Nat :=
  (p &&& 0x33) + (p / 4 &&& 0x33)

/-- What `x = (x + (x >> 4)) & 0x0F0F0F0F` does to one byte: the two nibble
counts are added. -/
def byte_count (q : Nat) : Nat :=
  q % 16 + q / 16

/-- The exact integer `v` clamped into the range of `T`: the reference
against which the saturating operations are compared. -/
def clamp (T : IntType) (v : Int) : Int :=
  if v > T.max then T.max else if v < T.min then T.min else v

end Cxx

namespace sat_arith

open Cxx

/-- The function `sat_add<T>(a, b)` of `saturating.hpp`.  The sign tests
`__a < 0` and `__b < 0` sit in the branch compiled for signed `T` only, where
the comparison with the `int` literal converts between signed types and so
compares the values themselves. -/
def sat_add (T : IntType) (a b : Int) : Int :=
  let r := builtin_add_overflow T a b
  if !r.1 then r.2
  else if T.isSigned then
    (if a < 0 ∨ b < 0 then T.min else T.max)
  else T.max

/-- The function `sat_sub<T>(a, b)` of `saturating.hpp`. -/
def sat_sub (T : IntType) (a b : Int) : Int :=
  let r := builtin_sub_overflow T a b
  if !r.1 then r.2
  else if T.isSigned then
    (if a < 0 ∨ b < 0 then T.min else T.max)
  else T.max

/-- The function `sat_mul<T>(a, b)` of `saturating.hpp`. -/
def sat_mul (T : IntType) (a b : Int) : Int :=
  let r := builtin_mul_overflow T a b
  if !r.1 then r.2
  else if T.isSigned then
    (if a < 0 ∧ b < 0 then T.max else T.min)
  else T.max

/-- The function `sat_div<T>(a, b)` of `saturating.hpp`; `none` is the abort
on a zero divisor.  The literals `0` and `-1` have type `int`, so the tests
`__b == 0` and `__b == -1` compare under the usual arithmetic conversions, and
`__a / __b` divides in the promoted type, truncating toward zero, before the
quotient is converted back to `T`. -/
def sat_div (T : IntType) (a b : Int) : Option Int :=
  if cmp_eq T b int32 0 then none
  else if cmp_eq T a T T.min && cmp_eq T b int32 (-1) then some T.max
  else
    let P := common_type T T
    some (static_cast T (static_cast P ((static_cast P a).tdiv (static_cast P b))))

/-- The first block of `saturate_cast`, for a signed target and a signed
source; `none` when the block is compiled out or falls through. -/
def saturate_cast_signed_signed (To From : IntType) (a : Int) : Option Int :=
  if To.isSigned ∧ From.isSigned then
    if cmp_gt From a To To.max then some To.max
    else if cmp_lt From a To To.min then some To.min
    else none
  else none

/-- The second block of `saturate_cast`, for an unsigned target and a signed
source. -/
def saturate_cast_unsigned_signed (To From : IntType) (a : Int) : Option Int :=
  if ¬ To.isSigned ∧ From.isSigned then
    if cmp_lt From a To To.min then some 0
    else if cmp_gt From a To To.max then some To.max
    else none
  else none

/-- The third block of `saturate_cast`, for a signed target and an unsigned
source. -/
def saturate_cast_signed_unsigned (To From : IntType) (a : Int) : Option Int :=
  if To.isSigned ∧ ¬ From.isSigned then
    if cmp_gt From a To To.max then some To.max
    else none
  else none

/-- The function `saturate_cast<To>(a)` of `saturating.hpp` for an `a` of type
`From`: the three `if constexpr` blocks in order, then the final
`static_cast<To>(a)`. -/
def saturate_cast (To From : IntType) (a : Int) : Int :=
  match saturate_cast_signed_signed To From a with
  | some r => r
  | none =>
    match saturate_cast_unsigned_signed To From a with
    | some r => r
    | none =>
      match saturate_cast_signed_unsigned To From a with
      | some r => r
      | none => static_cast To a

end sat_arith

namespace rel

open Cxx

/-- The overload `__impl_popcount(unsigned int)` of `bitcount.hpp`, on a value
`x < 2 ^ 32`; every step is taken modulo `2 ^ 32` and the result is converted
to the return type `std::int32_t`. -/
def impl_popcount (x : Nat) : Int :=
  let m0 := 0x55555555
  let m1 := 0x33333333
  let m2 := 0x0F0F0F0F
  let x1 := (x + 2 ^ 32 - ((x >>> 1) &&& m0)) % 2 ^ 32
  let x2 := ((x1 &&& m1) + ((x1 >>> 2) &&& m1)) % 2 ^ 32
  let x3 := ((x2 + (x2 >>> 4)) % 2 ^ 32) &&& m2
  let x4 := (x3 + ((x3 >>> 8) + (x3 >>> 16)) % 2 ^ 32) % 2 ^ 32
  static_cast int32 ((x4 &&& 0x0000003F : Nat) : Int)

/-- The template `__impl_popcount<unsigned long>` of `bitcount.hpp`, on a
value `x < 2 ^ 64`; every step is taken modulo `2 ^ 64` and the result is
converted to the return type `std::int32_t`. -/
def impl_popcount_long (x : Nat) : Int :=
  let m0 := 0x06DB6DB6DB6DB6DB
  let m1 := 0x0492492492492492
  let m2 := 0x030C30C30C30C30C
  let m3 := 0x0104104104104104
  let x1 := ((x + (x &&& m0)) % 2 ^ 64 + m1) % 2 ^ 64
  let x2 := ((x1 &&& m2) + ((x1 >>> 3) &&& m2)) % 2 ^ 64
  static_cast int32 ((((x2 * m3) % 2 ^ 64) >>> 58 : Nat) : Int)

/-- The `while` loop of `countl_zero` on a value `x` of the unsigned type `T`,
run for at most `fuel` iterations; `none` when the loop has not ended by then.
The test is `!(__x & ~std::numeric_limits<std::int32_t>::max())`, whose mask
has type `int`, and the body is `++__count; __x <<= 1u;`.  The counter is kept
exact: in C++ it is an `std::int32_t` whose overflow is undefined. -/
def countl_zero_loop (T : IntType) : Nat → Int → Int → Option Int
  | 0, _, _ => none
  | fuel + 1, x, count =>
    if bit_and T x int32 (bit_not int32 int32.max) = 0 then
      countl_zero_loop T fuel (static_cast T (shift_left T x 1)) (count + 1)
    else some count

/-- The function `countl_zero<T>(x)` of `bitcount.hpp` on a value `x` of the
unsigned type `T`, with the loop run for at most `fuel` iterations.  The
macro `__COUNTL__` is reset to `0` before it is tested, so the loop is the
branch that is compiled. -/
def countl_zero (T : IntType) (fuel : Nat) (x : Int) : Option Int :=
  if cmp_eq T x uint32 0 then some 8
  else countl_zero_loop T fuel x 0

/-- The function `countl_one<T>(x)` of `bitcount.hpp`:
`countl_zero(static_cast<T>(~__x))`. -/
def countl_one (T : IntType) (fuel : Nat) (x : Int) : Option Int :=
  countl_zero T fuel (static_cast T (bit_not T x))

/-- One `if (__x & mask) __count -= step;` statement of `countr_zero`, the
mask being a literal of type `int`. -/
def countr_zero_step (T : IntType) (x mask step count : Int) : Int :=
  if bit_and T x int32 mask ≠ 0 then static_cast int32 (count - step) else count

/-- The function `countr_zero<T>(x)` of `bitcount.hpp` on a value `x` of the
unsigned type `T`, on the portable branch, the one compiled when
`__has_builtin(__builtin_ctz)` holds (`__COUNTR__` is then `1` and the
builtins sit under `#if __COUNTR__ == 0`). -/
def countr_zero (T : IntType) (x : Int) : Int :=
  if cmp_eq T x uint32 0 then 32
  else
    let x1 := static_cast T (bit_and T x (promote T) (negate T x))
    let c1 := countr_zero_step T x1 0x0000FFFF 16 31
    let c2 := countr_zero_step T x1 0x00FF00FF 8 c1
    let c3 := countr_zero_step T x1 0x0F0F0F0F 4 c2
    let c4 := countr_zero_step T x1 0x33333333 2 c3
    countr_zero_step T x1 0x55555555 1 c4

/-- The function `countr_one<T>(x)` of `bitcount.hpp`:
`countr_zero(static_cast<T>(~__x))`. -/
def countr_one (T : IntType) (x : Int) : Int :=
  countr_zero T (static_cast T (bit_not T x))

/-- The function `bit_width<T>(x)` of `bitcount.hpp`, with the loop of
`countl_zero` run for at most `fuel` iterations. -/
def bit_width (T : IntType) (fuel : Nat) (x : Int) : Option Int :=
  if cmp_eq T x uint32 0 then some 0
  else (countl_zero T fuel x).map fun c => static_cast int32 (T.digits - c)

/-- The number of set bits among the low `w` bits of `x`, counted one bit at
a time: the reference count that the popcount paths are compared with. -/
def naive_popcount : Nat → Nat → Nat
  | 0, _ => 0
  | w + 1, x => x % 2 + naive_popcount w (x / 2)

end rel

namespace Cxx

/-- The mask with the 6-bit pattern `c` in each of the `n` lowest 6-bit blocks;
the masks of the long popcount path are `rep6 10 c`. -/
def rep6 : Nat → Nat → Nat
  | 0, _ => 0
  | n + 1, c => 64 * rep6 n c + c

/-- Block by block, the exact sum `x + (x & m0) + m1` of the long popcount
path over the `n` lowest 6-bit blocks of `x`. -/
def group_sums : Nat → Nat → Nat
  | 0, _ => 0
  | n + 1, x => 64 * group_sums n (x / 64) + (x % 64 + (x % 64 &&& 27) + 18)

/-- The number whose `n` lowest 6-bit blocks hold four times the bit count
of the matching block of `x`. -/
def block_counts : Nat → Nat → Nat
  | 0, _ => 0
  | n + 1, x => 64 * block_counts n (x / 64) + 4 * rel.naive_popcount 6 (x % 64)

end Cxx

namespace Cxx

theorem two_pow_bits (T : IntType) (h : 0 < T.bits) :
    (2 : Int) ^ T.bits = 2 * 2 ^ (T.bits - 1) := by
  obtain ⟨n, hn⟩ : ∃ n, T.bits = n + 1 := ⟨T.bits - 1, by omega⟩
  rw [hn, pow_succ]
  simp
  ring

theorem two_pow_pos (n : Nat) : (0 : Int) < 2 ^ n := by positivity

/-- Converting to `T` keeps a value exactly when it is a value of `T`. -/
theorem static_cast_eq_iff (T : IntType) (h : 0 < T.bits) (v : Int) :
    static_cast T v = v ↔ T.InRange v := by
  have h2 := two_pow_bits T h
  have hp := two_pow_pos (T.bits - 1)
  have hq := two_pow_pos T.bits
  unfold static_cast IntType.InRange IntType.min IntType.max
  cases hs : T.isSigned
  · simp only [Bool.false_eq_true, if_false]
    constructor
    · intro e
      have h1 := Int.emod_nonneg v (ne_of_gt hq)
      have h3 := Int.emod_lt_of_pos v hq
      omega
    · rintro ⟨h1, h3⟩
      exact Int.emod_eq_of_lt h1 (by omega)
  · simp only [if_true]
    constructor
    · intro e
      have h1 := Int.emod_nonneg (v + 2 ^ (T.bits - 1)) (ne_of_gt hq)
      have h3 := Int.emod_lt_of_pos (v + 2 ^ (T.bits - 1)) hq
      omega
    · rintro ⟨h1, h3⟩
      rw [Int.emod_eq_of_lt (by omega) (by omega)]
      omega

theorem static_cast_of_inRange (T : IntType) (h : 0 < T.bits) (v : Int)
    (hv : T.InRange v) : static_cast T v = v :=
  (static_cast_eq_iff T h v).2 hv

theorem min_le_max (T : IntType) : T.min ≤ T.max := by
  have hp := two_pow_pos (T.bits - 1)
  have hq := two_pow_pos T.bits
  unfold IntType.min IntType.max
  split <;> omega

end Cxx

open Cxx sat_arith

theorem sat_add_clamp (T : IntType) (hT : 0 < T.bits) (a b : Int)
    (ha : T.InRange a) (hb : T.InRange b) :
    sat_add T a b = clamp T (a + b) := by
  have hiff := static_cast_eq_iff T hT (a + b)
  have hp := two_pow_pos (T.bits - 1)
  have hq := two_pow_pos T.bits
  unfold sat_add builtin_add_overflow clamp
  by_cases hr : T.InRange (a + b)
  · have e := hiff.2 hr
    unfold IntType.InRange at hr
    simp only [e, ne_eq, not_true_eq_false, decide_False, Bool.not_false, if_true]
    rw [if_neg (by omega), if_neg (by omega)]
  · have e : ¬ static_cast T (a + b) = a + b := fun e => hr (hiff.1 e)
    simp only [ne_eq, e, not_false_eq_true, decide_True, Bool.not_true, Bool.false_eq_true,
      if_false]
    unfold IntType.InRange IntType.min IntType.max at *
    cases hs : T.isSigned <;> simp only [hs, Bool.false_eq_true, if_false, if_true] at * <;>
      split_ifs <;> omega

/-- C3: for every integer type `T`, signed or unsigned, of at least two bits
and all `a`, `b` of type `T`, `sat_add(a, b)` is the exact sum `a + b`
clamped into `[T::min, T::max]`; for signed `T`, `sat_add(T::max, 1) = T::max`
and `sat_add(T::min, -1) = T::min`. -/
theorem sat_add_exact_or_clamped (T : IntType) (hT : 1 < T.bits) (a b : Int)
    (ha : T.InRange a) (hb : T.InRange b) :
    sat_add T a b = clamp T (a + b) ∧
    (T.isSigned = true →
      sat_add T T.max 1 = T.max ∧ sat_add T T.min (-1) = T.min) := by
  refine ⟨sat_add_clamp T (by omega) a b ha hb, fun hs => ?_⟩
  have h2 := two_pow_bits ⟨T.isSigned, T.bits - 1⟩ (by simpa using by omega)
  have hp := two_pow_pos (T.bits - 1 - 1)
  simp only at h2
  have hmin : T.min = -(2 ^ (T.bits - 1)) := by simp [IntType.min, hs]
  have hmax : T.max = 2 ^ (T.bits - 1) - 1 := by simp [IntType.max, hs]
  have h1 : T.InRange 1 := by
    unfold IntType.InRange
    omega
  have hm1 : T.InRange (-1) := by
    unfold IntType.InRange
    omega
  have hmx : T.InRange T.max := ⟨min_le_max T, le_refl _⟩
  have hmn : T.InRange T.min := ⟨le_refl _, min_le_max T⟩
  rw [sat_add_clamp T (by omega) _ _ hmx h1, sat_add_clamp T (by omega) _ _ hmn hm1]
  unfold clamp
  constructor
  · rw [if_pos (by omega)]
  · rw [if_neg (by omega), if_pos (by omega)]

/-- Witness of C3 on `std::int8_t`: `sat_add(100, 27) = 127`. -/
theorem sat_add_exact_or_clamped_witness :
    sat_add int8 100 27 = clamp int8 (100 + 27) ∧
    (int8.isSigned = true →
      sat_add int8 int8.max 1 = int8.max ∧ sat_add int8 int8.min (-1) = int8.min) :=
  sat_add_exact_or_clamped int8 (by decide) 100 27 (by decide) (by decide)

/-- C1: on signed types `sat_sub` does not clamp an upward overflow to
`T::max`: `sat_sub(T::max, -1)` is `T::min` for the 8-, 16-, 32- and 64-bit
types, while the exact difference `T::max + 1` clamps to `T::max`. -/
theorem sat_sub_max_neg_one :
    sat_sub int8 127 (-1) = -128 ∧ clamp int8 (127 - (-1)) = 127 ∧
    sat_sub int16 int16.max (-1) = int16.min ∧
    sat_sub int32 int32.max (-1) = int32.min ∧
    sat_sub int64 int64.max (-1) = int64.min ∧
    int8.min ≠ int8.max ∧ int16.min ≠ int16.max ∧
    int32.min ≠ int32.max ∧ int64.min ≠ int64.max := by
  decide

/-- C2: on signed types `sat_mul` does not clamp the overflowing product of
two positive operands to `T::max`: `sat_mul(T::max, 2)` is `T::min` for the
8-, 16-, 32- and 64-bit types, while the exact product clamps to `T::max`. -/
theorem sat_mul_max_two :
    sat_mul int8 127 2 = -128 ∧ clamp int8 (127 * 2) = 127 ∧
    sat_mul int16 int16.max 2 = int16.min ∧
    sat_mul int32 int32.max 2 = int32.min ∧
    sat_mul int64 int64.max 2 = int64.min := by
  decide

theorem saturate_cast_signed_clamp (To From : IntType) (hTo : To.Supported)
    (hFrom : From.Supported) (hs : To.isSigned = true) (v : Int)
    (hv : From.InRange v) : saturate_cast To From v = clamp To v := by
  obtain ⟨s, w⟩ := To
  obtain ⟨s', w'⟩ := From
  simp only at hs
  subst hs
  simp only [IntType.Supported] at hTo hFrom
  rcases hTo with h | h | h | h <;> subst h <;>
  rcases hFrom with h | h | h | h <;> subst h <;>
  cases s' <;>
  simp [saturate_cast, saturate_cast_signed_signed, saturate_cast_unsigned_signed,
    saturate_cast_signed_unsigned, common_type, promote, static_cast, cmp_gt, cmp_lt, clamp,
    IntType.max, IntType.min, IntType.InRange, int32] at hv ⊢ <;>
  split_ifs <;> (try dsimp only) <;> omega

/-- C6: for every signed target type of 8, 16, 32 or 64 bits and every value
`v` of a signed or unsigned source type of any of these widths,
`saturate_cast<To>(v)` is `v` clamped into `[To::min, To::max]`; in particular
`saturate_cast<int8>(300) = 127`, `saturate_cast<int8>(-200) = -128` and
`saturate_cast<int32>(uint32::max) = int32::max`. -/
theorem saturate_cast_signed_target (To From : IntType) (hTo : To.Supported)
    (hFrom : From.Supported) (hs : To.isSigned = true) (v : Int)
    (hv : From.InRange v) :
    saturate_cast To From v = clamp To v ∧
    saturate_cast int8 int32 300 = 127 ∧
    saturate_cast int8 int32 (-200) = -128 ∧
    saturate_cast int32 uint32 uint32.max = int32.max :=
  ⟨saturate_cast_signed_clamp To From hTo hFrom hs v hv, by decide, by decide, by decide⟩

/-- Witness of C6: a 64-bit unsigned value above `int16::max` cast to
`std::int16_t`. -/
theorem saturate_cast_signed_target_witness :
    saturate_cast int16 uint64 70000 = clamp int16 70000 ∧
    saturate_cast int8 int32 300 = 127 ∧
    saturate_cast int8 int32 (-200) = -128 ∧
    saturate_cast int32 uint32 uint32.max = int32.max :=
  saturate_cast_signed_target int16 uint64 (by decide) (by decide) rfl 70000 (by decide)

/-- C4: for a signed source and an unsigned target at least as wide as the
promoted source, `saturate_cast` does not clamp a negative value to `0`: the
tests `__a < __min` and `__a > __max` compare in the unsigned type, so `-5`
comes out as `2 ^ bits - 5` for `int32 -> uint32`, `int8 -> uint32`,
`int32 -> uint64` and `int64 -> uint64`; `saturate_cast<uint8>(-5)` is `0`. -/
theorem saturate_cast_unsigned_target_negative :
    saturate_cast uint32 int32 (-5) = 4294967291 ∧
    saturate_cast uint32 int8 (-5) = 4294967291 ∧
    saturate_cast uint64 int32 (-5) = 18446744073709551611 ∧
    saturate_cast uint64 int64 (-5) = 18446744073709551611 ∧
    saturate_cast uint8 int32 (-5) = 0 ∧
    clamp uint32 (-5) = 0 ∧ clamp uint64 (-5) = 0 := by
  decide

/-- C5: for an unsigned source and a narrower unsigned target no block of
`saturate_cast` applies and the value is reduced modulo `2 ^ bits`:
`saturate_cast<uint8>(uint32(300))` is `44`, not `255`, and
`saturate_cast<uint32>(uint64(2 ^ 32))` is `0`, not `uint32::max`. -/
theorem saturate_cast_unsigned_narrowing :
    saturate_cast uint8 uint32 300 = 44 ∧ clamp uint8 300 = 255 ∧
    saturate_cast uint32 uint64 4294967296 = 0 ∧
    clamp uint32 4294967296 = 4294967295 := by
  decide

/-- C8: on the 32- and 64-bit unsigned types the guard
`__a == min && __b == -1` of `sat_div` holds at `a = 0`, `b = T::max`, since
`-1` converts to `T::max`; `sat_div(0, T::max)` is then `T::max` although the
exact quotient is `0`.  On `unsigned char` both operands are promoted to
`int` and the quotient `0` is returned. -/
theorem sat_div_unsigned_zero_by_max :
    sat_div uint32 0 4294967295 = some 4294967295 ∧
    sat_div uint64 0 18446744073709551615 = some 18446744073709551615 ∧
    sat_div uint8 0 255 = some 0 ∧
    (0 : Int) / 4294967295 = 0 ∧ (0 : Int) / 18446744073709551615 = 0 := by
  decide

/-- C9: the 32-bit `__impl_popcount` is not the bit count: on `0xFFFFFFFF` it
returns `24` where `32` bits are set, and on `0x01000000` it returns `0`
where one bit is set. -/
theorem impl_popcount_all_ones :
    rel.impl_popcount 0xFFFFFFFF = 24 ∧ rel.naive_popcount 32 0xFFFFFFFF = 32 ∧
    rel.impl_popcount 0x01000000 = 0 ∧ rel.naive_popcount 32 0x01000000 = 1 := by
  decide

/-- C10: the long `__impl_popcount` is not the bit count on 64-bit values: on
`2 ^ 64 - 1` it returns `58` where `64` bits are set, and on `2 ^ 63` it
returns `0` where one bit is set. -/
theorem impl_popcount_long_all_ones :
    rel.impl_popcount_long 0xFFFFFFFFFFFFFFFF = 58 ∧
    rel.naive_popcount 64 0xFFFFFFFFFFFFFFFF = 64 ∧
    rel.impl_popcount_long 0x8000000000000000 = 0 ∧
    rel.naive_popcount 64 0x8000000000000000 = 1 := by
  decide

namespace Cxx

theorem tdiv_pos_bounds (x y : Int) (hx : 0 ≤ x) (hy : 0 < y) :
    0 ≤ x.tdiv y ∧ x.tdiv y ≤ x ∧ (2 ≤ y → 2 * x.tdiv y ≤ x) := by
  rw [Int.tdiv_eq_ediv hx (le_of_lt hy)]
  have h0 : 0 ≤ x / y := Int.ediv_nonneg hx (le_of_lt hy)
  have h1 : x / y * y ≤ x := Int.ediv_mul_le x (ne_of_gt hy)
  refine ⟨h0, by nlinarith, fun h2 => by nlinarith⟩

/-- The truncated quotient of two values of a signed range `[-M, M - 1]` lies
in that range, the quotient `-M / -1` apart. -/
theorem tdiv_in_range (M a b : Int) (ha : -M ≤ a ∧ a ≤ M - 1)
    (hb : -M ≤ b ∧ b ≤ M - 1) (hb0 : b ≠ 0) (h : ¬ (a = -M ∧ b = -1)) :
    -M ≤ a.tdiv b ∧ a.tdiv b ≤ M - 1 := by
  rcases lt_or_le a 0 with hneg | hpos
  · rcases lt_or_le b 0 with hbn | hbp
    · have e : a.tdiv b = (-a).tdiv (-b) := (Int.neg_tdiv_neg a b).symm
      obtain ⟨k0, k1, k2⟩ := tdiv_pos_bounds (-a) (-b) (by omega) (by omega)
      rw [e]
      by_cases hb1 : b = -1
      · have : a ≠ -M := fun ea => h ⟨ea, hb1⟩
        omega
      · have := k2 (by omega)
        omega
    · have e : a.tdiv b = -((-a).tdiv b) := by rw [Int.neg_tdiv, neg_neg]
      obtain ⟨k0, k1, _⟩ := tdiv_pos_bounds (-a) b (by omega) (by omega)
      omega
  · rcases lt_or_le b 0 with hbn | hbp
    · have e : a.tdiv b = -(a.tdiv (-b)) := by rw [Int.tdiv_neg, neg_neg]
      obtain ⟨k0, k1, _⟩ := tdiv_pos_bounds a (-b) hpos (by omega)
      omega
    · obtain ⟨k0, k1, _⟩ := tdiv_pos_bounds a b hpos (by omega)
      omega

/-- A value of a signed type compares equal to a value of `int` exactly when
the two are the same integer. -/
theorem cmp_eq_signed_int (T : IntType) (hT : T.Supported) (hs : T.isSigned = true)
    (v c : Int) (hv : T.InRange v) (hc : int32.InRange c) :
    cmp_eq T v int32 c = decide (v = c) := by
  obtain ⟨s, w⟩ := T
  simp only at hs
  subst hs
  simp only [IntType.Supported] at hT
  rcases hT with h | h | h | h <;> subst h <;>
  simp [cmp_eq, common_type, promote, static_cast, IntType.max, IntType.min,
    IntType.InRange, int32] at hv hc ⊢ <;>
  omega

/-- Two values of one type compare equal exactly when they are the same
integer. -/
theorem cmp_eq_same (T : IntType) (hT : T.Supported) (v c : Int)
    (hv : T.InRange v) (hc : T.InRange c) :
    cmp_eq T v T c = decide (v = c) := by
  obtain ⟨s, w⟩ := T
  simp only [IntType.Supported] at hT
  rcases hT with h | h | h | h <;> subst h <;> cases s <;>
  simp [cmp_eq, common_type, promote, static_cast, IntType.max, IntType.min,
    IntType.InRange, int32] at hv hc ⊢ <;>
  omega

/-- The promoted type of `T` holds every value of `T`. -/
theorem static_cast_promoted (T : IntType) (hT : T.Supported) (v : Int)
    (hv : T.InRange v) : static_cast (common_type T T) v = v := by
  obtain ⟨s, w⟩ := T
  simp only [IntType.Supported] at hT
  rcases hT with h | h | h | h <;> subst h <;> cases s <;>
  simp [common_type, promote, static_cast, IntType.max, IntType.min,
    IntType.InRange, int32] at hv ⊢ <;>
  omega

end Cxx

theorem sat_div_signed_cases (T : IntType) (hT : T.Supported) (hs : T.isSigned = true)
    (a b : Int) (ha : T.InRange a) (hb : T.InRange b) :
    sat_div T a b =
      if b = 0 then none
      else if a = T.min ∧ b = -1 then some T.max
      else some (a.tdiv b) := by
  have hbits : 0 < T.bits := by
    rcases hT with h | h | h | h <;> omega
  have h32 : ∀ c : Int, c = 0 ∨ c = -1 → int32.InRange c := by
    rintro c (rfl | rfl) <;> decide
  have hmn : T.InRange T.min := ⟨le_refl _, min_le_max T⟩
  unfold sat_div
  rw [cmp_eq_signed_int T hT hs b 0 hb (h32 0 (Or.inl rfl)),
    cmp_eq_signed_int T hT hs b (-1) hb (h32 (-1) (Or.inr rfl)),
    cmp_eq_same T hT a T.min ha hmn]
  by_cases hb0 : b = 0
  · simp [hb0]
  · by_cases hg : a = T.min ∧ b = -1
    · simp [hg.1, hg.2]
    · have hq : T.InRange (a.tdiv b) := by
        have hmin : T.min = -(2 ^ (T.bits - 1)) := by simp [IntType.min, hs]
        have hmax : T.max = 2 ^ (T.bits - 1) - 1 := by simp [IntType.max, hs]
        have hq := tdiv_in_range (2 ^ (T.bits - 1)) a b
          (by unfold IntType.InRange at ha; omega)
          (by unfold IntType.InRange at hb; omega) hb0 (by rw [← hmin]; exact hg)
        unfold IntType.InRange
        omega
      have hg' : ¬ (decide (a = T.min) && decide (b = -1)) = true := by
        simpa using hg
      simp only [hb0, decide_False, Bool.false_eq_true, if_false, hg', hg]
      rw [static_cast_promoted T hT a ha, static_cast_promoted T hT b hb,
        static_cast_promoted T hT _ hq, static_cast_of_inRange T hbits _ hq]

/-- C7: for every signed type `T` of 8, 16, 32 or 64 bits and all `a`, `b` of
type `T`, `sat_div(a, b)` aborts exactly when `b = 0`; for `b ≠ 0` it returns
`T::max` when `a = T::min` and `b = -1`, and the quotient truncated toward
zero otherwise, which is the exact truncated quotient clamped into
`[T::min, T::max]`; and `sat_div(T::min, -1) = T::max`. -/
theorem sat_div_signed (T : IntType) (hT : T.Supported) (hs : T.isSigned = true)
    (a b : Int) (ha : T.InRange a) (hb : T.InRange b) :
    (sat_div T a b = none ↔ b = 0) ∧
    (b ≠ 0 → sat_div T a b =
      some (if a = T.min ∧ b = -1 then T.max else a.tdiv b)) ∧
    (b ≠ 0 → sat_div T a b = some (clamp T (a.tdiv b))) ∧
    sat_div T T.min (-1) = some T.max := by
  have hc := sat_div_signed_cases T hT hs a b ha hb
  have hmin : T.min = -(2 ^ (T.bits - 1)) := by simp [IntType.min, hs]
  have hmax : T.max = 2 ^ (T.bits - 1) - 1 := by simp [IntType.max, hs]
  have hp := two_pow_pos (T.bits - 1)
  have hbits : 1 < T.bits := by
    rcases hT with h | h | h | h <;> omega
  have h2 := two_pow_bits ⟨T.isSigned, T.bits - 1⟩ (by simpa using by omega)
  have hp2 := two_pow_pos (T.bits - 1 - 1)
  simp only at h2
  refine ⟨?_, ?_, ?_, ?_⟩
  · rw [hc]
    constructor
    · intro h
      by_contra hb0
      rw [if_neg hb0] at h
      split_ifs at h
    · intro hb0
      rw [if_pos hb0]
  · intro hb0
    rw [hc, if_neg hb0]
    split_ifs <;> rfl
  · intro hb0
    rw [hc, if_neg hb0]
    by_cases hg : a = T.min ∧ b = -1
    · rw [if_pos hg, hg.1, hg.2]
      have e : T.min.tdiv (-1) = -T.min := by
        rw [Int.tdiv_neg, Int.tdiv_one]
      rw [e]
      unfold clamp
      rw [if_pos (by omega)]
    · rw [if_neg hg]
      have hq := tdiv_in_range (2 ^ (T.bits - 1)) a b
        (by unfold IntType.InRange at ha; omega)
        (by unfold IntType.InRange at hb; omega) hb0 (by rw [← hmin]; exact hg)
      unfold clamp
      rw [if_neg (by omega), if_neg (by omega)]
  · have hmn : T.InRange T.min := ⟨le_refl _, min_le_max T⟩
    have hm1 : T.InRange (-1) := by
      unfold IntType.InRange
      omega
    rw [sat_div_signed_cases T hT hs T.min (-1) hmn hm1]
    simp

/-- Witness of C7 on `std::int8_t`: `sat_div(-7, 2) = -3`. -/
theorem sat_div_signed_witness :
    (sat_div int8 (-7) 2 = none ↔ (2 : Int) = 0) ∧
    ((2 : Int) ≠ 0 → sat_div int8 (-7) 2 =
      some (if (-7 : Int) = int8.min ∧ (2 : Int) = -1 then int8.max else (-7 : Int).tdiv 2)) ∧
    ((2 : Int) ≠ 0 → sat_div int8 (-7) 2 = some (clamp int8 ((-7 : Int).tdiv 2))) ∧
    sat_div int8 int8.min (-1) = some int8.max :=
  sat_div_signed int8 (by decide) rfl (-7) 2 (by decide) (by decide)

open rel

/-- C12: `countl_zero(0)` is the constant `8` for every type, so it is the
width only for `unsigned char`: on `unsigned int` and `unsigned long` it is
`8`, not `32` or `64`, and `countl_one` of the all-ones value is `8` too. -/
theorem countl_zero_zero_is_eight :
    countl_zero uint8 64 0 = some 8 ∧
    countl_zero uint32 64 0 = some 8 ∧
    countl_zero uint64 64 0 = some 8 ∧
    countl_one uint8 64 0xFF = some 8 ∧
    countl_one uint32 64 0xFFFFFFFF = some 8 ∧
    countl_one uint64 64 0xFFFFFFFFFFFFFFFF = some 8 := by
  decide

theorem countl_zero_loop_uint8 (fuel : Nat) :
    ∀ x count : Int, 0 ≤ x → x ≤ 255 → countl_zero_loop uint8 fuel x count = none := by
  induction fuel with
  | zero => intro x count _ _; rfl
  | succ n ih =>
    intro x count h0 h1
    have hz : bit_and uint8 x int32 (bit_not int32 int32.max) = 0 := by
      interval_cases x <;> decide
    have hr : 0 ≤ static_cast uint8 (shift_left uint8 x 1) ∧
        static_cast uint8 (shift_left uint8 x 1) ≤ 255 := by
      simp only [static_cast, uint8, Bool.false_eq_true, if_false]
      omega
    rw [countl_zero_loop, if_pos hz]
    exact ih _ _ hr.1 hr.2

/-- C13: on `unsigned char` the loop of `countl_zero` never ends for a
non-zero input: the operand is promoted to `int`, bit 31 of a value below
`256` is never set, so for `x = 1` no number of iterations yields a value. -/
theorem countl_zero_uint8_one_diverges :
    ∀ fuel : Nat, countl_zero uint8 fuel 1 = none := by
  intro fuel
  have h : cmp_eq uint8 1 uint32 0 = false := by decide
  rw [countl_zero, h]
  exact countl_zero_loop_uint8 fuel 1 0 (by decide) (by decide)

/-- C15: on `unsigned long` the portable `countr_zero` tests 32-bit masks
only, so a lowest set bit at index 32 or above leaves the count at `31`:
`countr_zero(2 ^ 40)` is `31`, not `40`, and `countr_zero(2 ^ 63)` is `31`. -/
theorem countr_zero_uint64_high_bit :
    countr_zero uint64 (2 ^ 40) = 31 ∧ countr_zero uint64 (2 ^ 63) = 31 ∧
    countr_zero uint64 (2 ^ 20) = 20 := by
  decide

/-- C16: on `unsigned long` `bit_width(1)` is `33`, not `1`: the loop of
`countl_zero` stops as soon as any of the bits 31..63 is set and so returns
`31` for `x = 1`.  On `unsigned int` `bit_width(1)` is `1`. -/
theorem bit_width_uint64_one :
    bit_width uint64 64 1 = some 33 ∧ countl_zero uint64 64 1 = some 31 ∧
    bit_width uint32 64 1 = some 1 ∧
    bit_width uint64 64 0 = some 0 ∧
    bit_width uint64 64 0xFFFFFFFFFFFFFFFF = some 64 := by
  decide

theorem saturate_cast_inRange (To From : IntType) (hTo : To.Supported) (v : Int) :
    To.InRange (saturate_cast To From v) := by
  have hbits : 0 < To.bits := by
    rcases hTo with h | h | h | h <;> omega
  have h2 := two_pow_bits To hbits
  have hp := two_pow_pos (To.bits - 1)
  have hmx : To.InRange To.max := ⟨min_le_max To, le_refl _⟩
  have hmn : To.InRange To.min := ⟨le_refl _, min_le_max To⟩
  have h0 : To.InRange 0 := by
    unfold IntType.InRange IntType.min IntType.max
    split <;> omega
  have hc : To.InRange (static_cast To v) := by
    have hq := two_pow_pos To.bits
    unfold IntType.InRange IntType.min IntType.max static_cast
    split
    · have h1 := Int.emod_nonneg (v + 2 ^ (To.bits - 1)) (ne_of_gt hq)
      have h3 := Int.emod_lt_of_pos (v + 2 ^ (To.bits - 1)) hq
      omega
    · have h1 := Int.emod_nonneg v (ne_of_gt hq)
      have h3 := Int.emod_lt_of_pos v hq
      omega
  unfold saturate_cast saturate_cast_signed_signed saturate_cast_unsigned_signed
    saturate_cast_signed_unsigned
  split_ifs <;> assumption

theorem saturate_cast_same (T : IntType) (hT : T.Supported) (v : Int)
    (hv : T.InRange v) : saturate_cast T T v = v := by
  obtain ⟨s, w⟩ := T
  simp only [IntType.Supported] at hT
  rcases hT with h | h | h | h <;> subst h <;> cases s <;>
  simp [saturate_cast, saturate_cast_signed_signed, saturate_cast_unsigned_signed,
    saturate_cast_signed_unsigned, common_type, promote, static_cast, cmp_gt, cmp_lt,
    IntType.max, IntType.min, IntType.InRange, int32] at hv ⊢ <;>
  (try split_ifs) <;> (try dsimp only) <;> omega

/-- C17: `saturate_cast` is idempotent: for every target type `T` and every
value `v` of any source type, `saturate_cast<T>(saturate_cast<T>(v))` is
`saturate_cast<T>(v)`; and a value already of type `T` is returned
unchanged. -/
theorem saturate_cast_idempotent (T From : IntType) (hT : T.Supported) (v : Int)
    (_hv : From.InRange v) :
    saturate_cast T T (saturate_cast T From v) = saturate_cast T From v ∧
    (∀ r : Int, T.InRange r → saturate_cast T T r = r) :=
  ⟨saturate_cast_same T hT _ (saturate_cast_inRange T From hT v),
    fun r hr => saturate_cast_same T hT r hr⟩

/-- Witness of C17: `300` of type `int` cast twice to `std::int8_t`. -/
theorem saturate_cast_idempotent_witness :
    saturate_cast int8 int8 (saturate_cast int8 int32 300) = saturate_cast int8 int32 300 ∧
    (∀ r : Int, int8.InRange r → saturate_cast int8 int8 r = r) :=
  saturate_cast_idempotent int8 int32 (by decide) 300 (by decide)

/-- C18: for every unsigned type `T` and all `a`, `b` of type `T`,
`sat_sub(a, b)` is `a - b` when `a ≥ b` and is `T::max`, which is not `0`,
when `a < b`. -/
theorem sat_sub_unsigned (T : IntType) (hT : 0 < T.bits) (hs : T.isSigned = false)
    (a b : Int) (ha : T.InRange a) (hb : T.InRange b) :
    (b ≤ a → sat_sub T a b = a - b) ∧
    (a < b → sat_sub T a b = T.max ∧ T.max ≠ 0) := by
  have hiff := static_cast_eq_iff T hT (a - b)
  have h2 := two_pow_bits T hT
  have hp := two_pow_pos (T.bits - 1)
  have hmin : T.min = 0 := by simp [IntType.min, hs]
  have hmax : T.max = 2 ^ T.bits - 1 := by simp [IntType.max, hs]
  unfold IntType.InRange at ha hb hiff
  unfold sat_sub builtin_sub_overflow
  constructor
  · intro hle
    have e : static_cast T (a - b) = a - b := hiff.2 (by omega)
    simp [e]
  · intro hlt
    have e : ¬ static_cast T (a - b) = a - b := fun e => by
      have := hiff.1 e
      omega
    simp only [ne_eq, e, not_false_eq_true, decide_True, Bool.not_true, Bool.false_eq_true,
      if_false, hs]
    exact ⟨trivial, by omega⟩

/-- Witness of C18 on `unsigned char`: `sat_sub(3, 5) = 255`. -/
theorem sat_sub_unsigned_witness :
    ((5 : Int) ≤ 3 → sat_sub uint8 3 5 = 3 - 5) ∧
    ((3 : Int) < 5 → sat_sub uint8 3 5 = uint8.max ∧ uint8.max ≠ 0) :=
  sat_sub_unsigned uint8 (by decide) rfl 3 5 (by decide) (by decide)

namespace Cxx

/-- Bitwise conjunction acts separately on the low `n` bits and on the rest. -/
theorem land_concat (n a b c d : Nat) (ha : a < 2 ^ n) (hc : c < 2 ^ n) :
    (2 ^ n * b + a) &&& (2 ^ n * d + c) = 2 ^ n * (b &&& d) + (a &&& c) := by
  apply Nat.eq_of_testBit_eq
  intro j
  rw [Nat.testBit_and, Nat.testBit_mul_pow_two_add _ ha, Nat.testBit_mul_pow_two_add _ hc,
    Nat.testBit_mul_pow_two_add _ (Nat.and_lt_two_pow a hc)]
  split <;> simp

theorem land_two_pow (x k : Nat) : x &&& 2 ^ k = 2 ^ k * (x / 2 ^ k % 2) := by
  have h := land_concat k (x % 2 ^ k) (x / 2 ^ k) 0 1 (Nat.mod_lt _ (Nat.two_pow_pos k))
    (Nat.two_pow_pos k)
  rw [Nat.div_add_mod] at h
  simpa using h

theorem to_bits_unsigned (T : IntType) (n : Nat) (hn : n < 2 ^ T.bits) :
    to_bits T (n : Int) = n := by
  unfold to_bits
  have : ((n : Int) % 2 ^ T.bits) = ((n % 2 ^ T.bits : Nat) : Int) := by
    push_cast
    rfl
  rw [this, Nat.mod_eq_of_lt hn]
  simp

end Cxx

theorem countl_zero_test_uint32 (n : Nat) (hn : n < 2 ^ 32) :
    bit_and uint32 (n : Int) int32 (bit_not int32 int32.max)
      = ((2 ^ 31 * (n / 2 ^ 31 % 2) : Nat) : Int) := by
  have hc : common_type uint32 int32 = uint32 := by decide
  have hm : to_bits uint32 (bit_not int32 int32.max) = 2 ^ 31 := by decide
  unfold bit_and
  rw [hc, hm, to_bits_unsigned uint32 n hn, land_two_pow]
  apply static_cast_of_inRange uint32 (by decide)
  simp only [IntType.InRange, IntType.min, IntType.max, uint32]
  simp
  omega

theorem inRange_uint32 (n : Nat) (hn : n < 2 ^ 32) : uint32.InRange (n : Int) := by
  simp only [IntType.InRange, IntType.min, IntType.max, uint32, Bool.false_eq_true, if_false]
  omega

theorem countl_zero_shift_uint32 (n : Nat) (hn : n < 2 ^ 31) :
    static_cast uint32 (shift_left uint32 (n : Int) 1) = ((2 * n : Nat) : Int) := by
  simp only [shift_left, promote, static_cast, uint32, Bool.false_eq_true, if_false]
  push_cast
  omega

theorem countl_zero_loop_uint32 (fuel : Nat) :
    ∀ (n : Nat) (count : Int) (k : Nat), k < fuel → k ≤ 31 → 2 ^ (31 - k) ≤ n →
      n < 2 ^ (32 - k) → countl_zero_loop uint32 fuel (n : Int) count = some (count + k) := by
  induction fuel with
  | zero => intro n count k hk; omega
  | succ f ih =>
    intro n count k hk hk31 hlo hhi
    have hn : n < 2 ^ 32 := lt_of_lt_of_le hhi (Nat.pow_le_pow_right (by decide) (by omega))
    rw [countl_zero_loop, countl_zero_test_uint32 n hn]
    cases k with
    | zero =>
      have hd : n / 2 ^ 31 = 1 := by
        simp only [Nat.sub_zero] at hlo hhi
        omega
      rw [hd]
      simp
    | succ j =>
      have h31 : n < 2 ^ 31 := by
        refine lt_of_lt_of_le hhi (Nat.pow_le_pow_right (by decide) (by omega))
      have hd : n / 2 ^ 31 = 0 := Nat.div_eq_of_lt h31
      rw [hd]
      simp only [Nat.zero_mod, Nat.mul_zero, Nat.cast_zero, if_true]
      rw [countl_zero_shift_uint32 n h31, ih (2 * n) (count + 1) j (by omega) (by omega)]
      · push_cast
        congr 1
        ring
      · have e : 31 - j = (31 - (j + 1)) + 1 := by omega
        rw [e, pow_succ]
        omega
      · have e : 32 - j = (32 - (j + 1)) + 1 := by omega
        rw [e, pow_succ]
        omega

/-- C11: for every non-zero 32-bit `x` the loop of `countl_zero` ends within
32 iterations and `countl_zero(x)` is `31 - floor(log2 x)`, the number of
leading zero bits of `x` in 32 bits; `countl_zero(0xFFFFFFFF) = 0` and
`countl_zero(1) = 31`. -/
theorem countl_zero_uint32 (x : Nat) (h0 : 0 < x) (hx : x < 2 ^ 32) (fuel : Nat)
    (hf : 32 ≤ fuel) :
    countl_zero uint32 fuel (x : Int) = some ((31 - Nat.log 2 x : Nat) : Int) ∧
    2 ^ Nat.log 2 x ≤ x ∧ x < 2 ^ (Nat.log 2 x + 1) ∧
    countl_zero uint32 fuel 0xFFFFFFFF = some 0 ∧
    countl_zero uint32 fuel 1 = some 31 := by
  have key : ∀ n : Nat, 0 < n → n < 2 ^ 32 →
      countl_zero uint32 fuel (n : Int) = some ((31 - Nat.log 2 n : Nat) : Int) ∧
      2 ^ Nat.log 2 n ≤ n ∧ n < 2 ^ (Nat.log 2 n + 1) := by
    intro n hn0 hn
    have hl : Nat.log 2 n < 32 := Nat.log_lt_of_lt_pow (by omega) hn
    have h1 : 2 ^ Nat.log 2 n ≤ n := Nat.pow_log_le_self 2 (by omega)
    have h2 : n < 2 ^ (Nat.log 2 n + 1) := Nat.lt_pow_succ_log_self (by decide) n
    have e1 : 31 - (31 - Nat.log 2 n) = Nat.log 2 n := by omega
    have e2 : 32 - (31 - Nat.log 2 n) = Nat.log 2 n + 1 := by omega
    have hne : cmp_eq uint32 (n : Int) uint32 0 = false := by
      rw [cmp_eq_same uint32 (by decide) (n : Int) 0 (inRange_uint32 n hn) (by decide)]
      simp only [decide_eq_false_iff_not]
      omega
    refine ⟨?_, h1, h2⟩
    rw [countl_zero, hne]
    simp only [Bool.false_eq_true, if_false]
    rw [countl_zero_loop_uint32 fuel n 0 (31 - Nat.log 2 n) (by omega) (by omega)
      (by rw [e1]; exact h1) (by rw [e2]; exact h2)]
    simp
  refine ⟨(key x h0 hx).1, (key x h0 hx).2.1, (key x h0 hx).2.2, ?_, ?_⟩
  · have h := (key 0xFFFFFFFF (by decide) (by decide)).1
    have e : Nat.log 2 0xFFFFFFFF = 31 :=
      Nat.log_eq_of_pow_le_of_lt_pow (by decide) (by decide)
    rw [e] at h
    exact h
  · have h := (key 1 (by decide) (by decide)).1
    simpa using h

/-- Witness of C11: `countl_zero(0x00010000)` with 32 iterations allowed. -/
theorem countl_zero_uint32_witness :
    countl_zero uint32 32 ((65536 : Nat) : Int) = some ((31 - Nat.log 2 65536 : Nat) : Int) ∧
    2 ^ Nat.log 2 65536 ≤ 65536 ∧ 65536 < 2 ^ (Nat.log 2 65536 + 1) ∧
    countl_zero uint32 32 0xFFFFFFFF = some 0 ∧
    countl_zero uint32 32 1 = some 31 :=
  countl_zero_uint32 65536 (by decide) (by decide) 32 (le_refl _)

namespace Cxx

/-- An odd `m` below `2 ^ j` shares only bit 0 with `2 ^ j - m`. -/
theorem land_neg_odd (j m : Nat) (hodd : m % 2 = 1) (hm : m < 2 ^ j) :
    m &&& (2 ^ j - m) = 1 := by
  obtain ⟨i, rfl⟩ : ∃ i, j = i + 1 := by
    cases j with
    | zero => simp at hm; omega
    | succ i => exact ⟨i, rfl⟩
  have hp : 2 ^ (i + 1) = 2 * 2 ^ i := by rw [pow_succ]; ring
  have hlt : m / 2 < 2 ^ i := by omega
  have e1 : m = 2 ^ 1 * (m / 2) + 1 := by omega
  have e2 : 2 ^ (i + 1) - m = 2 ^ 1 * (2 ^ i - (m / 2 + 1)) + 1 := by omega
  have hz : m / 2 &&& (2 ^ i - (m / 2 + 1)) = 0 := by
    apply Nat.eq_of_testBit_eq
    intro t
    rw [Nat.testBit_and, Nat.testBit_two_pow_sub_succ hlt]
    cases m.div 2 |>.testBit t <;> simp
  rw [e2]
  nth_rewrite 1 [e1]
  rw [land_concat 1 1 (m / 2) 1 _ (by decide) (by decide), hz]
  rfl

/-- The lowest set bit: `x & -x` in `n` bits is `2 ^ k` when `x` is `2 ^ k`
times an odd number. -/
theorem land_neg_eq_two_pow (n k m : Nat) (hodd : m % 2 = 1) (hx : 2 ^ k * m < 2 ^ n) :
    (2 ^ k * m) &&& (2 ^ n - 2 ^ k * m) = 2 ^ k := by
  have hk : k < n := by
    by_contra hge
    have : 2 ^ n ≤ 2 ^ k := Nat.pow_le_pow_right (by decide) (by omega)
    have : 2 ^ k * 1 ≤ 2 ^ k * m := Nat.mul_le_mul_left _ (by omega)
    omega
  have hn : 2 ^ n = 2 ^ k * 2 ^ (n - k) := by
    rw [← pow_add]
    congr 1
    omega
  have hm : m < 2 ^ (n - k) := by
    rw [hn] at hx
    exact Nat.lt_of_mul_lt_mul_left hx
  have e : 2 ^ n - 2 ^ k * m = 2 ^ k * (2 ^ (n - k) - m) := by
    rw [hn, Nat.mul_sub]
  rw [e]
  have h := land_concat k 0 m 0 (2 ^ (n - k) - m) (Nat.two_pow_pos k) (Nat.two_pow_pos k)
  simp only [Nat.add_zero, Nat.and_self] at h
  rw [h, land_neg_odd (n - k) m hodd hm, Nat.mul_one]

end Cxx

theorem countr_zero_isolate_uint32 (n : Nat) (h0 : 0 < n) (hn : n < 2 ^ 32) :
    static_cast uint32 (bit_and uint32 (n : Int) (promote uint32) (negate uint32 (n : Int)))
      = ((n &&& (2 ^ 32 - n) : Nat) : Int) := by
  have hp : promote uint32 = uint32 := by decide
  have hc : common_type uint32 uint32 = uint32 := by decide
  have hneg : negate uint32 (n : Int) = ((2 ^ 32 - n : Nat) : Int) := by
    simp only [negate, promote, static_cast, uint32, Bool.false_eq_true, if_false]
    norm_num
    omega
  have hlt : n &&& (2 ^ 32 - n) < 2 ^ 32 := lt_of_le_of_lt Nat.and_le_left hn
  rw [hneg, hp]
  unfold bit_and
  rw [hc, to_bits_unsigned uint32 n hn, to_bits_unsigned uint32 (2 ^ 32 - n) (by
    show 2 ^ 32 - n < 2 ^ 32
    omega)]
  rw [static_cast_of_inRange uint32 (by decide) _ (inRange_uint32 _ hlt),
    static_cast_of_inRange uint32 (by decide) _ (inRange_uint32 _ hlt)]

theorem countr_zero_steps_uint32 (k : Nat) (hk : k < 32) :
    countr_zero_step uint32 ((2 ^ k : Nat) : Int) 0x55555555 1
      (countr_zero_step uint32 ((2 ^ k : Nat) : Int) 0x33333333 2
        (countr_zero_step uint32 ((2 ^ k : Nat) : Int) 0x0F0F0F0F 4
          (countr_zero_step uint32 ((2 ^ k : Nat) : Int) 0x00FF00FF 8
            (countr_zero_step uint32 ((2 ^ k : Nat) : Int) 0x0000FFFF 16 31)))) = (k : Int) := by
  interval_cases k <;> decide

/-- C14: for every 32-bit `x` the portable `countr_zero(x)` is `32` when
`x = 0` and otherwise the number `k` of trailing zero bits of `x`, the largest
`k` with `2 ^ k` dividing `x`; `countr_zero(0xFFFFFFFF) = 0`. -/
theorem countr_zero_uint32 (x : Nat) (hx : x < 2 ^ 32) :
    (x = 0 → countr_zero uint32 (x : Int) = 32) ∧
    (x ≠ 0 → ∃ k : Nat, countr_zero uint32 (x : Int) = (k : Int) ∧ k < 32 ∧
      2 ^ k ∣ x ∧ ¬ 2 ^ (k + 1) ∣ x) ∧
    countr_zero uint32 0xFFFFFFFF = 0 := by
  refine ⟨?_, ?_, by decide⟩
  · rintro rfl
    decide
  · intro hne
    obtain ⟨k, m, hodd, rfl⟩ := Nat.exists_eq_two_pow_mul_odd hne
    have hm : m % 2 = 1 := Nat.odd_iff.1 hodd
    have hk : k < 32 := by
      by_contra hge
      have : 2 ^ 32 ≤ 2 ^ k := Nat.pow_le_pow_right (by decide) (by omega)
      have : 2 ^ k * 1 ≤ 2 ^ k * m := Nat.mul_le_mul_left _ (by omega)
      omega
    have hpos : 0 < 2 ^ k * m := Nat.pos_of_ne_zero hne
    refine ⟨k, ?_, hk, Dvd.intro m rfl, ?_⟩
    · have hz : cmp_eq uint32 ((2 ^ k * m : Nat) : Int) uint32 0 = false := by
        rw [cmp_eq_same uint32 (by decide) _ 0 (inRange_uint32 _ hx) (by decide)]
        simp only [decide_eq_false_iff_not]
        omega
      unfold countr_zero
      rw [hz]
      simp only [Bool.false_eq_true, if_false]
      rw [countr_zero_isolate_uint32 _ hpos hx, land_neg_eq_two_pow 32 k m hm hx]
      exact countr_zero_steps_uint32 k hk
    · rw [pow_succ]
      intro hd
      have h2 : 2 ∣ m := (Nat.mul_dvd_mul_iff_left (Nat.two_pow_pos k)).1 hd
      omega

/-- Witness of C14: `countr_zero(48) = 4`. -/
theorem countr_zero_uint32_witness :
    ((48 : Nat) = 0 → countr_zero uint32 ((48 : Nat) : Int) = 32) ∧
    ((48 : Nat) ≠ 0 → ∃ k : Nat, countr_zero uint32 ((48 : Nat) : Int) = (k : Int) ∧ k < 32 ∧
      2 ^ k ∣ 48 ∧ ¬ 2 ^ (k + 1) ∣ 48) ∧
    countr_zero uint32 0xFFFFFFFF = 0 :=
  countr_zero_uint32 48 (by decide)

namespace Cxx

theorem land_bytes (a0 a1 a2 a3 c0 c1 c2 c3 : Nat) (ha0 : a0 < 256) (ha1 : a1 < 256)
    (ha2 : a2 < 256) (hc0 : c0 < 256) (hc1 : c1 < 256) (hc2 : c2 < 256) :
    bytes4 a0 a1 a2 a3 &&& bytes4 c0 c1 c2 c3
      = bytes4 (a0 &&& c0) (a1 &&& c1) (a2 &&& c2) (a3 &&& c3) := by
  have e : (256 : Nat) = 2 ^ 8 := rfl
  unfold bytes4
  rw [e] at *
  rw [land_concat 8 a0 _ c0 _ ha0 hc0, land_concat 8 a1 _ c1 _ ha1 hc1,
    land_concat 8 a2 _ c2 _ ha2 hc2]

/-- A mask below `2 ^ n` ignores what is added above bit `n`. -/
theorem land_drop_high (n u c m : Nat) (hu : u < 2 ^ n) (hm : m < 2 ^ n) :
    (2 ^ n * c + u) &&& m = u &&& m := by
  have h := land_concat n u c m 0 hu hm
  simpa using h

theorem land_mod_pow (x n : Nat) : x &&& (2 ^ n - 1) = x % 2 ^ n :=
  Nat.and_pow_two_sub_one_eq_mod x n

theorem bytes4_eq (x : Nat) :
    x = bytes4 (x % 256) (x / 256 % 256) (x / 65536 % 256) (x / 16777216) := by
  unfold bytes4
  omega

theorem naive_popcount_mod (w : Nat) : ∀ x : Nat,
    rel.naive_popcount w (x % 2 ^ w) = rel.naive_popcount w x := by
  induction w with
  | zero => intro x; rfl
  | succ n ih =>
    intro x
    have e1 : x % 2 ^ (n + 1) % 2 = x % 2 := by
      rw [pow_succ]
      exact Nat.mod_mod_of_dvd x (Dvd.intro_left _ rfl)
    have e2 : x % 2 ^ (n + 1) / 2 = x / 2 % 2 ^ n := by
      rw [pow_succ, Nat.mul_comm, Nat.mod_mul]
      generalize x / 2 % 2 ^ n = y
      omega
    rw [rel.naive_popcount, rel.naive_popcount, e1, e2, ih]

theorem naive_popcount_add (m n : Nat) : ∀ x : Nat,
    rel.naive_popcount (m + n) x
      = rel.naive_popcount m x + rel.naive_popcount n (x / 2 ^ m) := by
  induction m with
  | zero => intro x; simp [rel.naive_popcount]
  | succ k ih =>
    intro x
    have e : k + 1 + n = (k + n) + 1 := by omega
    rw [e, rel.naive_popcount, rel.naive_popcount, ih, pow_succ, Nat.div_div_eq_div_mul,
      Nat.mul_comm 2]
    omega

end Cxx

namespace Cxx

/-- Byte-wise form of `x -= (x >> 1) & 0x55555555`. -/
theorem popcount_step1 (b0 b1 b2 b3 : Nat) (h0 : b0 < 256) (h1 : b1 < 256) (h2 : b2 < 256)
    (h3 : b3 < 256) :
    (bytes4 b0 b1 b2 b3 + 2 ^ 32 - ((bytes4 b0 b1 b2 b3 >>> 1) &&& 0x55555555)) % 2 ^ 32
      = bytes4 (pair_counts b0) (pair_counts b1) (pair_counts b2) (pair_counts b3) := by
  unfold pair_counts
  have hm : (0x55555555 : Nat) = bytes4 0x55 0x55 0x55 0x55 := by decide
  have hs : bytes4 b0 b1 b2 b3 >>> 1
      = bytes4 (2 ^ 7 * (b1 % 2) + b0 / 2) (2 ^ 7 * (b2 % 2) + b1 / 2)
          (2 ^ 7 * (b3 % 2) + b2 / 2) (b3 / 2) := by
    rw [Nat.shiftRight_eq_div_pow]
    unfold bytes4
    omega
  rw [hs, hm, land_bytes _ _ _ _ _ _ _ _ (by omega) (by omega) (by omega) (by decide)
    (by decide) (by decide),
    land_drop_high 7 (b0 / 2) _ 0x55 (by omega) (by decide),
    land_drop_high 7 (b1 / 2) _ 0x55 (by omega) (by decide),
    land_drop_high 7 (b2 / 2) _ 0x55 (by omega) (by decide)]
  have k0 : b0 / 2 &&& 0x55 ≤ b0 / 2 := Nat.and_le_left
  have k1 : b1 / 2 &&& 0x55 ≤ b1 / 2 := Nat.and_le_left
  have k2 : b2 / 2 &&& 0x55 ≤ b2 / 2 := Nat.and_le_left
  have k3 : b3 / 2 &&& 0x55 ≤ b3 / 2 := Nat.and_le_left
  unfold bytes4
  omega

/-- Byte-wise form of `x = (x & 0x33333333) + ((x >> 2) & 0x33333333)`. -/
theorem popcount_step2 (p0 p1 p2 p3 : Nat) (h0 : p0 < 256) (h1 : p1 < 256) (h2 : p2 < 256) :
    ((bytes4 p0 p1 p2 p3 &&& 0x33333333) + ((bytes4 p0 p1 p2 p3 >>> 2) &&& 0x33333333))
        % 2 ^ 32
      = bytes4 (nibble_counts p0) (nibble_counts p1) (nibble_counts p2)
          (nibble_counts p3) := by
  unfold nibble_counts
  have hm : (0x33333333 : Nat) = bytes4 0x33 0x33 0x33 0x33 := by decide
  have hs : bytes4 p0 p1 p2 p3 >>> 2
      = bytes4 (2 ^ 6 * (p1 % 4) + p0 / 4) (2 ^ 6 * (p2 % 4) + p1 / 4)
          (2 ^ 6 * (p3 % 4) + p2 / 4) (p3 / 4) := by
    rw [Nat.shiftRight_eq_div_pow]
    unfold bytes4
    omega
  rw [hs, hm, land_bytes p0 p1 p2 p3 _ _ _ _ h0 h1 h2 (by decide) (by decide) (by decide),
    land_bytes _ _ _ _ _ _ _ _ (by omega) (by omega) (by omega) (by decide)
    (by decide) (by decide),
    land_drop_high 6 (p0 / 4) _ 0x33 (by omega) (by decide),
    land_drop_high 6 (p1 / 4) _ 0x33 (by omega) (by decide),
    land_drop_high 6 (p2 / 4) _ 0x33 (by omega) (by decide)]
  have k0 : p0 &&& 0x33 ≤ 0x33 := Nat.and_le_right
  have k1 : p1 &&& 0x33 ≤ 0x33 := Nat.and_le_right
  have k2 : p2 &&& 0x33 ≤ 0x33 := Nat.and_le_right
  have k3 : p3 &&& 0x33 ≤ 0x33 := Nat.and_le_right
  have j0 : p0 / 4 &&& 0x33 ≤ 0x33 := Nat.and_le_right
  have j1 : p1 / 4 &&& 0x33 ≤ 0x33 := Nat.and_le_right
  have j2 : p2 / 4 &&& 0x33 ≤ 0x33 := Nat.and_le_right
  have j3 : p3 / 4 &&& 0x33 ≤ 0x33 := Nat.and_le_right
  unfold bytes4
  omega

/-- Byte-wise form of `x = (x + (x >> 4)) & 0x0F0F0F0F`, for bytes whose two
nibbles are at most `4`. -/
theorem popcount_step3 (q0 q1 q2 q3 : Nat)
    (h0 : q0 % 16 ≤ 4 ∧ q0 / 16 ≤ 4) (h1 : q1 % 16 ≤ 4 ∧ q1 / 16 ≤ 4)
    (h2 : q2 % 16 ≤ 4 ∧ q2 / 16 ≤ 4) (h3 : q3 % 16 ≤ 4 ∧ q3 / 16 ≤ 4) :
    ((bytes4 q0 q1 q2 q3 + (bytes4 q0 q1 q2 q3 >>> 4)) % 2 ^ 32) &&& 0x0F0F0F0F
      = bytes4 (byte_count q0) (byte_count q1) (byte_count q2) (byte_count q3) := by
  unfold byte_count
  have hm : (0x0F0F0F0F : Nat) = bytes4 0x0F 0x0F 0x0F 0x0F := by decide
  have hs : (bytes4 q0 q1 q2 q3 + (bytes4 q0 q1 q2 q3 >>> 4)) % 2 ^ 32
      = bytes4 (2 ^ 4 * (q0 / 16 + q1 % 16) + (q0 % 16 + q0 / 16))
          (2 ^ 4 * (q1 / 16 + q2 % 16) + (q1 % 16 + q1 / 16))
          (2 ^ 4 * (q2 / 16 + q3 % 16) + (q2 % 16 + q2 / 16))
          (2 ^ 4 * (q3 / 16) + (q3 % 16 + q3 / 16)) := by
    rw [Nat.shiftRight_eq_div_pow]
    unfold bytes4
    omega
  have e : ∀ u : Nat, u < 16 → u &&& 0x0F = u := fun u hu => by
    have := land_mod_pow u 4
    rw [Nat.mod_eq_of_lt (by omega)] at this
    exact this
  rw [hs, hm, land_bytes _ _ _ _ _ _ _ _ (by omega) (by omega) (by omega) (by decide)
    (by decide) (by decide),
    land_drop_high 4 (q0 % 16 + q0 / 16) _ 0x0F (by omega) (by decide),
    land_drop_high 4 (q1 % 16 + q1 / 16) _ 0x0F (by omega) (by decide),
    land_drop_high 4 (q2 % 16 + q2 / 16) _ 0x0F (by omega) (by decide),
    land_drop_high 4 (q3 % 16 + q3 / 16) _ 0x0F (by omega) (by decide),
    e _ (by omega), e _ (by omega), e _ (by omega), e _ (by omega)]

/-- The fused last step `x += (x >> 8) + (x >> 16)` followed by `& 0x3F`
leaves the sum of the three low bytes. -/
theorem popcount_step4 (r0 r1 r2 r3 : Nat) (h0 : r0 ≤ 8) (h1 : r1 ≤ 8) (h2 : r2 ≤ 8)
    (h3 : r3 ≤ 8) :
    ((bytes4 r0 r1 r2 r3 + ((bytes4 r0 r1 r2 r3 >>> 8) + (bytes4 r0 r1 r2 r3 >>> 16)) % 2 ^ 32)
        % 2 ^ 32) &&& 0x0000003F = r0 + r1 + r2 := by
  have e := land_mod_pow ((bytes4 r0 r1 r2 r3 +
    ((bytes4 r0 r1 r2 r3 >>> 8) + (bytes4 r0 r1 r2 r3 >>> 16)) % 2 ^ 32) % 2 ^ 32) 6
  have e6 : (2 ^ 6 - 1 : Nat) = 0x0000003F := by decide
  rw [e6] at e
  have d8 : bytes4 r0 r1 r2 r3 >>> 8 = 256 * (256 * r3 + r2) + r1 := by
    rw [Nat.shiftRight_eq_div_pow]
    unfold bytes4
    omega
  have d16 : bytes4 r0 r1 r2 r3 >>> 16 = 256 * r3 + r2 := by
    rw [Nat.shiftRight_eq_div_pow]
    unfold bytes4
    omega
  rw [e, d8, d16]
  clear e d8 d16
  unfold bytes4
  omega

set_option maxRecDepth 100000 in
/-- The three byte-wise steps count the set bits of a byte. -/
theorem byte_count_eq : ∀ b : Nat, b < 256 →
    pair_counts b < 256 ∧
    (nibble_counts (pair_counts b) % 16 ≤ 4 ∧ nibble_counts (pair_counts b) / 16 ≤ 4) ∧
    byte_count (nibble_counts (pair_counts b)) ≤ 8 ∧
    byte_count (nibble_counts (pair_counts b)) = rel.naive_popcount 8 b := by
  decide

theorem impl_popcount_bytes4 (b0 b1 b2 b3 : Nat) (h0 : b0 < 256) (h1 : b1 < 256)
    (h2 : b2 < 256) (h3 : b3 < 256) :
    rel.impl_popcount (bytes4 b0 b1 b2 b3)
      = ((rel.naive_popcount 8 b0 + rel.naive_popcount 8 b1 + rel.naive_popcount 8 b2 : Nat)
          : Int) := by
  obtain ⟨a0, n0, c0, e0⟩ := byte_count_eq b0 h0
  obtain ⟨a1, n1, c1, e1⟩ := byte_count_eq b1 h1
  obtain ⟨a2, n2, c2, e2⟩ := byte_count_eq b2 h2
  obtain ⟨a3, n3, c3, e3⟩ := byte_count_eq b3 h3
  unfold rel.impl_popcount
  simp only []
  rw [popcount_step1 b0 b1 b2 b3 h0 h1 h2 h3, popcount_step2 _ _ _ _ a0 a1 a2,
    popcount_step3 _ _ _ _ n0 n1 n2 n3, popcount_step4 _ _ _ _ c0 c1 c2 c3, e0, e1, e2]
  apply static_cast_of_inRange int32 (by decide)
  have k0 := e0 ▸ c0
  have k1 := e1 ▸ c1
  have k2 := e2 ▸ c2
  simp only [IntType.InRange, IntType.min, IntType.max, int32, if_true]
  omega

end Cxx

/-- C19: for every 32-bit `x` the 32-bit `__impl_popcount(x)` is the number of
set bits among the low 24 bits of `x`; so it is the bit count of `x` for
every `x < 2 ^ 24`, and of every 8-bit value. -/
theorem impl_popcount_low_24_bits (x : Nat) (hx : x < 2 ^ 32) :
    impl_popcount x = ((naive_popcount 24 (x % 2 ^ 24) : Nat) : Int) ∧
    (x < 2 ^ 24 → impl_popcount x = ((naive_popcount 32 x : Nat) : Int)) ∧
    (x < 2 ^ 8 → impl_popcount x = ((naive_popcount 8 x : Nat) : Int)) := by
  have h := impl_popcount_bytes4 (x % 256) (x / 256 % 256) (x / 65536 % 256) (x / 16777216)
    (by omega) (by omega) (by omega) (by omega)
  rw [← bytes4_eq x] at h
  have e24 : naive_popcount 24 x
      = naive_popcount 8 (x % 256) + naive_popcount 8 (x / 256 % 256)
        + naive_popcount 8 (x / 65536 % 256) := by
    have s1 := naive_popcount_add 8 16 x
    have s2 := naive_popcount_add 8 8 (x / 2 ^ 8)
    have m0 := naive_popcount_mod 8 x
    have m1 := naive_popcount_mod 8 (x / 2 ^ 8)
    have m2 := naive_popcount_mod 8 (x / 2 ^ 8 / 2 ^ 8)
    have d : x / 2 ^ 8 / 2 ^ 8 = x / 65536 := by omega
    rw [d] at m2 s2
    norm_num at s1 s2 m0 m1 m2 ⊢
    omega
  have main : impl_popcount x = ((naive_popcount 24 x : Nat) : Int) := by
    rw [h, e24]
  refine ⟨by rw [naive_popcount_mod 24 x]; exact main, fun h24 => ?_, fun h8 => ?_⟩
  · have s := naive_popcount_add 24 8 x
    have z : x / 2 ^ 24 = 0 := Nat.div_eq_of_lt h24
    have z8 : naive_popcount 8 0 = 0 := by decide
    rw [z, z8] at s
    rw [main]
    norm_num at s ⊢
    omega
  · have s := naive_popcount_add 8 16 x
    have z : x / 2 ^ 8 = 0 := Nat.div_eq_of_lt h8
    have z16 : naive_popcount 16 0 = 0 := by decide
    rw [z, z16] at s
    rw [main]
    norm_num at s ⊢
    omega

/-- Witness of C19: `__impl_popcount(0xA5)`, an 8-bit value. -/
theorem impl_popcount_low_24_bits_witness :
    impl_popcount 0xA5 = ((naive_popcount 24 (0xA5 % 2 ^ 24) : Nat) : Int) ∧
    (0xA5 < 2 ^ 24 → impl_popcount 0xA5 = ((naive_popcount 32 0xA5 : Nat) : Int)) ∧
    (0xA5 < 2 ^ 8 → impl_popcount 0xA5 = ((naive_popcount 8 0xA5 : Nat) : Int)) :=
  impl_popcount_low_24_bits 0xA5 (by decide)

namespace Cxx

theorem land_concat6 (a b c d : Nat) (ha : a < 64) (hc : c < 64) :
    (64 * b + a) &&& (64 * d + c) = 64 * (b &&& d) + (a &&& c) :=
  land_concat 6 a b c d ha hc

theorem naive_popcount_le (w : Nat) : ∀ x : Nat, rel.naive_popcount w x ≤ w := by
  induction w with
  | zero => intro x; exact le_refl _
  | succ n ih =>
    intro x
    have := ih (x / 2)
    rw [rel.naive_popcount]
    omega

/-- The first step of the long popcount path, block by block. -/
theorem group_sums_eq (n : Nat) : ∀ x : Nat, x < 64 ^ n →
    x + (x &&& rep6 n 27) + rep6 n 18 = group_sums n x := by
  induction n with
  | zero =>
    intro x hx
    have : x = 0 := by simpa using hx
    subst this
    rfl
  | succ k ih =>
    intro x hx
    have hx' : x / 64 < 64 ^ k := by
      rw [pow_succ] at hx
      exact Nat.div_lt_of_lt_mul (by rw [Nat.mul_comm]; exact hx)
    have hi := ih (x / 64) hx'
    have hl := land_concat6 (x % 64) (x / 64) 27 (rep6 k 27) (Nat.mod_lt _ (by decide))
      (by decide)
    have hd : 64 * (x / 64) + x % 64 = x := Nat.div_add_mod x 64
    rw [hd] at hl
    rw [rep6, rep6, group_sums, hl, ← hi]
    omega

theorem group_sums_lt (n : Nat) : ∀ x : Nat, group_sums n x + 2 ≤ 2 * 64 ^ n := by
  induction n with
  | zero => intro x; simp [group_sums]
  | succ k ih =>
    intro x
    have hi := ih (x / 64)
    have hb : x % 64 &&& 27 ≤ 27 := Nat.and_le_right
    have hm : x % 64 < 64 := Nat.mod_lt _ (by decide)
    rw [group_sums, pow_succ]
    omega

theorem group_sums_even (n : Nat) (x : Nat) : group_sums n x % 2 = 0 := by
  have key : ∀ b : Nat, b < 64 → (b + (b &&& 27) + 18) % 2 = 0 := by decide
  cases n with
  | zero => rfl
  | succ k =>
    have := key (x % 64) (Nat.mod_lt _ (by decide))
    rw [group_sums]
    omega

theorem block_counts_lt (n : Nat) : ∀ x : Nat, block_counts n x < 64 ^ n := by
  induction n with
  | zero => intro x; simp [block_counts]
  | succ k ih =>
    intro x
    have hi := ih (x / 64)
    have hb := naive_popcount_le 6 (x % 64)
    rw [block_counts, pow_succ]
    omega

/-- What the second step of the long popcount path leaves in one block, for a
block `b` and a carry `k` from the block below. -/
theorem block_step : ∀ k : Nat, k < 2 → ∀ b : Nat, b < 64 →
    ((k + (b + (b &&& 27) + 18)) % 64 &&& 12) + (8 * ((k + (b + (b &&& 27) + 18)) / 64)
      + ((k + (b + (b &&& 27) + 18)) % 64 / 8 &&& 4)) = 4 * rel.naive_popcount 6 b := by
  decide

/-- The second step of the long popcount path, block by block; a carry `k`
into bit 0 does not change the result. -/
theorem block_counts_eq (n : Nat) : ∀ x k : Nat, k ≤ 1 →
    ((k + group_sums n x) &&& rep6 n 12) + (((k + group_sums n x) / 8) &&& rep6 n 12)
      = block_counts n x := by
  induction n with
  | zero =>
    intro x k _
    simp [rep6, block_counts]
  | succ j ih =>
    intro x k hk
    have hm : x % 64 < 64 := Nat.mod_lt _ (by decide)
    have hb : x % 64 &&& 27 ≤ 27 := Nat.and_le_right
    have hk' : (k + (x % 64 + (x % 64 &&& 27) + 18)) / 64 ≤ 1 := by omega
    have hi := ih (x / 64) ((k + (x % 64 + (x % 64 &&& 27) + 18)) / 64) hk'
    have hev := group_sums_even j (x / 64)
    have hst := block_step k (by omega) (x % 64) hm
    rw [group_sums, rep6, block_counts]
    generalize x % 64 + (x % 64 &&& 27) + 18 = g at *
    generalize group_sums j (x / 64) = G at *
    have e1 : k + (64 * G + g) = 64 * ((k + g) / 64 + G) + (k + g) % 64 := by omega
    have e2 : (64 * ((k + g) / 64 + G) + (k + g) % 64) / 8
        = 64 * (((k + g) / 64 + G) / 8) + (2 ^ 3 * (((k + g) / 64 + G) % 8) + (k + g) % 64 / 8) := by
      omega
    have e3 : (12 : Nat) = 2 ^ 3 * 1 + 4 := rfl
    have l1 := land_concat6 ((k + g) % 64) ((k + g) / 64 + G) 12 (rep6 j 12)
      (Nat.mod_lt _ (by decide)) (by decide)
    have l2 := land_concat6 (2 ^ 3 * (((k + g) / 64 + G) % 8) + (k + g) % 64 / 8)
      (((k + g) / 64 + G) / 8) 12 (rep6 j 12) (by omega) (by decide)
    have l3 := land_concat 3 ((k + g) % 64 / 8) (((k + g) / 64 + G) % 8) 4 1 (by omega)
      (by decide)
    have l4 : ((k + g) / 64 + G) % 8 &&& 1 = (k + g) / 64 := by
      rw [Nat.and_one_is_mod]
      omega
    rw [← e3] at l3
    rw [e1, l1, e2, l2, l3, l4]
    omega

/-- The multiplication by `m3` and the shift by 58 add up ten block counts. -/
theorem block_counts_sum (c0 c1 c2 c3 c4 c5 c6 c7 c8 c9 : Nat) (h0 : c0 ≤ 6) (h1 : c1 ≤ 6) (h2 : c2 ≤ 6) (h3 : c3 ≤ 6) (h4 : c4 ≤ 6) (h5 : c5 ≤ 6) (h6 : c6 ≤ 6) (h7 : c7 ≤ 6) (h8 : c8 ≤ 6) (h9 : c9 ≤ 6) :
    (((64 * (64 * (64 * (64 * (64 * (64 * (64 * (64 * (64 * (64 * 0 + 4 * c9) + 4 * c8) + 4 * c7) + 4 * c6) + 4 * c5) + 4 * c4) + 4 * c3) + 4 * c2) + 4 * c1) + 4 * c0) * 0x0104104104104104) % 2 ^ 64) >>> 58
      = c0 + c1 + c2 + c3 + c4 + c5 + c6 + c7 + c8 + c9 := by
  have hE : (64 * (64 * (64 * (64 * (64 * (64 * (64 * (64 * (64 * (64 * 0 + 4 * c9) + 4 * c8) + 4 * c7) + 4 * c6) + 4 * c5) + 4 * c4) + 4 * c3) + 4 * c2) + 4 * c1) + 4 * c0) * 0x0104104104104104
      = 2 ^ 64 * (1 * c1 + 65 * c2 + 4161 * c3 + 266305 * c4 + 17043521 * c5 + 1090785345 * c6 + 69810262081 * c7 + 4467856773185 * c8 + 285942833483841 * c9)
        + (2 ^ 58 * (c0 + c1 + c2 + c3 + c4 + c5 + c6 + c7 + c8 + c9)
          + (4575085335741456 * c0 + 4575085335741440 * c1 + 4575085335740416 * c2 + 4575085335674880 * c3 + 4575085331480576 * c4 + 4575085063045120 * c5 + 4575067883175936 * c6 + 4573968371548160 * c7 + 4503599627370496 * c8)) := by
    ring
  have hR : 4575085335741456 * c0 + 4575085335741440 * c1 + 4575085335740416 * c2 + 4575085335674880 * c3 + 4575085331480576 * c4 + 4575085063045120 * c5 + 4575067883175936 * c6 + 4573968371548160 * c7 + 4503599627370496 * c8 < 2 ^ 58 := by
    omega
  have hW : 2 ^ 58 * (c0 + c1 + c2 + c3 + c4 + c5 + c6 + c7 + c8 + c9)
      + (4575085335741456 * c0 + 4575085335741440 * c1 + 4575085335740416 * c2 + 4575085335674880 * c3 + 4575085331480576 * c4 + 4575085063045120 * c5 + 4575067883175936 * c6 + 4573968371548160 * c7 + 4503599627370496 * c8) < 2 ^ 64 := by
    omega
  rw [hE, Nat.mul_add_mod, Nat.mod_eq_of_lt hW, Nat.shiftRight_eq_div_pow,
    Nat.mul_add_div (by decide), Nat.div_eq_of_lt hR, Nat.add_zero]

end Cxx

namespace Cxx

theorem naive_popcount_block (w x : Nat) :
    rel.naive_popcount (6 + w) x
      = rel.naive_popcount 6 (x % 64) + rel.naive_popcount w (x / 64) := by
  have h := naive_popcount_add 6 w x
  have m := naive_popcount_mod 6 x
  norm_num at h m
  rw [h, m]

theorem inRange_int32_of_le (n : Nat) (h : n ≤ 64) : int32.InRange (n : Int) := by
  simp only [IntType.InRange, IntType.min, IntType.max, int32, if_true]
  omega

end Cxx

/-- C20: for every `x < 2 ^ 60` the long `__impl_popcount(x)`, computed
modulo `2 ^ 64`, is the number of set bits of `x`. -/
theorem impl_popcount_long_below_two_pow_60 (x : Nat) (hx : x < 2 ^ 60) :
    impl_popcount_long x = ((naive_popcount 64 x : Nat) : Int) := by
  have hm0 : (0x06DB6DB6DB6DB6DB : Nat) = rep6 10 27 := by decide
  have hm1 : (0x0492492492492492 : Nat) = rep6 10 18 := by decide
  have hm2 : (0x030C30C30C30C30C : Nat) = rep6 10 12 := by decide
  have hA := group_sums_eq 10 x (by norm_num at hx ⊢; exact hx)
  have hG := group_sums_lt 10 x
  have hB := block_counts_eq 10 x 0 (by omega)
  have hV := block_counts_lt 10 x
  rw [Nat.zero_add] at hB
  norm_num at hG hV
  have hx1 : ((x + (x &&& 0x06DB6DB6DB6DB6DB)) % 2 ^ 64 + 0x0492492492492492) % 2 ^ 64
      = group_sums 10 x := by
    rw [hm0, hm1, ← hA]
    rw [← hA] at hG
    generalize x &&& rep6 10 27 = a at hG ⊢
    generalize rep6 10 18 = r at hG ⊢
    omega
  have hx2 : ((group_sums 10 x &&& 0x030C30C30C30C30C)
      + ((group_sums 10 x >>> 3) &&& 0x030C30C30C30C30C)) % 2 ^ 64 = block_counts 10 x := by
    rw [hm2, Nat.shiftRight_eq_div_pow]
    rw [show group_sums 10 x / 2 ^ 3 = group_sums 10 x / 8 from rfl, hB]
    exact Nat.mod_eq_of_lt (by omega)
  have z : x / 2 ^ 60 = 0 := Nat.div_eq_of_lt hx
  have t := naive_popcount_add 60 4 x
  have z4 : naive_popcount 4 0 = 0 := by decide
  rw [z, z4] at t
  have s0 := naive_popcount_block 54 (x)
  have s1 := naive_popcount_block 48 (x / 64)
  have s2 := naive_popcount_block 42 (x / 64 / 64)
  have s3 := naive_popcount_block 36 (x / 64 / 64 / 64)
  have s4 := naive_popcount_block 30 (x / 64 / 64 / 64 / 64)
  have s5 := naive_popcount_block 24 (x / 64 / 64 / 64 / 64 / 64)
  have s6 := naive_popcount_block 18 (x / 64 / 64 / 64 / 64 / 64 / 64)
  have s7 := naive_popcount_block 12 (x / 64 / 64 / 64 / 64 / 64 / 64 / 64)
  have s8 := naive_popcount_block 6 (x / 64 / 64 / 64 / 64 / 64 / 64 / 64 / 64)
  have s9 := naive_popcount_block 0 (x / 64 / 64 / 64 / 64 / 64 / 64 / 64 / 64 / 64)
  have s10 : naive_popcount 0 (x / 64 / 64 / 64 / 64 / 64 / 64 / 64 / 64 / 64 / 64) = 0 := rfl
  norm_num at t s0 s1 s2 s3 s4 s5 s6 s7 s8 s9
  have hsum : naive_popcount 6 (x % 64) + naive_popcount 6 (x / 64 % 64) + naive_popcount 6 (x / 64 / 64 % 64) + naive_popcount 6 (x / 64 / 64 / 64 % 64) + naive_popcount 6 (x / 64 / 64 / 64 / 64 % 64) + naive_popcount 6 (x / 64 / 64 / 64 / 64 / 64 % 64) + naive_popcount 6 (x / 64 / 64 / 64 / 64 / 64 / 64 % 64) + naive_popcount 6 (x / 64 / 64 / 64 / 64 / 64 / 64 / 64 % 64) + naive_popcount 6 (x / 64 / 64 / 64 / 64 / 64 / 64 / 64 / 64 % 64) + naive_popcount 6 (x / 64 / 64 / 64 / 64 / 64 / 64 / 64 / 64 / 64 % 64)
      = naive_popcount 64 x := by
    rw [t, s0, s1, s2, s3, s4, s5, s6, s7, s8, s9, s10]
    simp only [Nat.add_zero, Nat.add_assoc]
  unfold impl_popcount_long
  simp only []
  rw [hx1, hx2]
  simp only [block_counts]
  rw [block_counts_sum _ _ _ _ _ _ _ _ _ _ (naive_popcount_le 6 _) (naive_popcount_le 6 _) (naive_popcount_le 6 _) (naive_popcount_le 6 _) (naive_popcount_le 6 _) (naive_popcount_le 6 _) (naive_popcount_le 6 _) (naive_popcount_le 6 _) (naive_popcount_le 6 _) (naive_popcount_le 6 _)]
  rw [hsum]
  exact static_cast_of_inRange int32 (by decide) _
    (inRange_int32_of_le _ (naive_popcount_le 64 x))

/-- Witness of C20: `__impl_popcount(0x0123456789ABCDE)`. -/
theorem impl_popcount_long_below_two_pow_60_witness :
    impl_popcount_long 0x0123456789ABCDE = ((naive_popcount 64 0x0123456789ABCDE : Nat) : Int) :=
  impl_popcount_long_below_two_pow_60 0x0123456789ABCDE (by decide)
